import Mathlib

set_option maxHeartbeats 1000000

/-!
Shallow embedding of `FATokenSegmentationTools_1best_bpe_t<Ty>::Process`
(src/blingfireclient.library/inc/FATokenSegmentationTools_1best_bpe_t.h).

The input is a list of code units (`Nat`).  The model packages the four
read-only lookup structures used by `Process`: the Mealy DFA step
`GetDestOw` (returning the destination state, `-1` for a missing
transition, together with the output weight), the final-state test
`IsFinal`, and the `I2Info` multimap (`Get`, returning the list of
values for a key; an empty list models `Count < 1`, which fails the
`LogAssert`).  `K2I` is only validated in `SetConf` and never used by
`Process`, so it is not part of the model.

Fallible steps (`LogAssert` failures) are modelled with `Option`; the
unbounded output-reconstruction loop is modelled with explicit fuel,
since for some models it never terminates (see the counterexamples for
claims C1 and C2 below).
-/

structure Model where
  initial : Int
  getDestOw : Int → Nat → Int × Int
  isFinal : Int → Bool
  i2info : Int → List Int

/-- The `_TArc` record of the source: `_Start`, `_End`, `_Id`. -/
structure TArc where
  Start : Nat
  End : Nat
  Id : Int
deriving DecidableEq, Repr

/-- One output tuple `<TokenId, From, To>`. -/
structure Triple where
  id : Int
  s : Nat
  e : Nat
deriving DecidableEq, Repr

/-- The inner loop of arc enumeration (lines 142-171 of the source):
starting in `state` with accumulated output weight `sumOw`, consume
input positions `i, i+1, ...` until the DFA dies or input ends,
collecting an arc `⟨start, i, id⟩` at every final state.  Returns
`none` when the `I2Info` lookup violates `LogAssert (1 <= Count)`.
The loop bound `i < InSize` is realized by structural recursion on
`rem = InSize - i`, the number of remaining input positions. -/
def walkFrom (m : Model) (input : List Nat) (start : Nat) :
    Nat → Nat → Int → Int → Option (List TArc)
  | 0, _, _, _ => some []
  | rem+1, i, state, sumOw =>
    let Iw := input.getD i 0
    let p := m.getDestOw state Iw
    if p.1 = -1 then
      some []
    else
      let sumOw2 := sumOw + p.2
      if m.isFinal p.1 then
        match m.i2info sumOw2 with
        | [] => none
        | v :: _ =>
          match walkFrom m input start rem (i+1) p.1 sumOw2 with
          | none => none
          | some rest => some (⟨start, i, v⟩ :: rest)
      else
        walkFrom m input start rem (i+1) p.1 sumOw2

/-- One iteration of the outer enumeration loop (lines 134-187): run the
DFA walk from `start`; if nothing matched (`TokenUnknown`), either
extend a trailing unknown arc (coalescing) or append a fresh
length-1 unknown arc. -/
def addStart (m : Model) (input : List Nat) (unkId : Int) (arcs : List TArc)
    (start : Nat) : Option (List TArc) :=
  match walkFrom m input start (input.length - start) start m.initial 0 with
  | none => none
  | some [] =>
    match arcs.getLast? with
    | some la =>
      if la.Id = unkId then
        some (arcs.dropLast ++ [⟨la.Start, start, la.Id⟩])
      else
        some (arcs ++ [⟨start, start, unkId⟩])
    | none => some (arcs ++ [⟨start, start, unkId⟩])
  | some newArcs => some (arcs ++ newArcs)

/-- The outer enumeration loop over the listed start positions. -/
def buildArcsAux (m : Model) (input : List Nat) (unkId : Int) :
    List Nat → List TArc → Option (List TArc)
  | [], arcs => some arcs
  | st :: rest, arcs =>
    match addStart m input unkId arcs st with
    | none => none
    | some arcs2 => buildArcsAux m input unkId rest arcs2

/-- Arc enumeration for all starts `0, ..., InSize - 1`. -/
def buildArcs (m : Model) (input : List Nat) (unkId : Int) : Option (List TArc) :=
  buildArcsAux m input unkId (List.range input.length) []

/-- The comparator of the `std::qsort` call (lines 193-210): smaller ids
first, and for equal ids the left-most (smaller `_Start`) first. -/
def arcLE (a b : TArc) : Bool :=
  decide (a.Id < b.Id ∨ (a.Id = b.Id ∧ a.Start ≤ b.Start))

/-- The sort step.  The comparator orders arcs by `(id, start)`; we
realize it with a stable merge sort.  For models in which no two arcs
share both id and start (every conforming model: distinct segments have
distinct keys and hence distinct ids), a comparator-respecting sort is
unique, so this agrees with any `std::qsort` implementation. -/
def sortArcs (arcs : List TArc) : List TArc := arcs.mergeSort arcLE

unseal List.merge List.mergeSort

/-- The three parallel cover tables of size `InSize` (lines 212-226):
`tos` (all `0`), `ids` (all `UnkId`), and the byte array
`pIntermediate` (all `0`, here `false`). -/
structure Cover where
  tos : Nat → Nat
  ids : Nat → Int
  inter : Nat → Bool

def initCover (unkId : Int) : Cover :=
  ⟨fun _ => 0, fun _ => unkId, fun _ => false⟩

/-- The acceptance predicate of the cover loop (lines 236-237):
`0 == pIntermediate[Start] && (End + 1 == InSize || 0 == pIntermediate[End+1])`. -/
def accepts (N : Nat) (c : Cover) (a : TArc) : Bool :=
  !c.inter a.Start && (a.End + 1 == N || !c.inter (a.End + 1))

/-- One iteration of the cover-construction loop (lines 229-251): on
acceptance set `tos[Start] := End`, `ids[Start] := Id` and mark the
strictly interior positions `Start+1 .. End`. -/
def coverStep (N : Nat) (c : Cover) (a : TArc) : Cover :=
  if accepts N c a then
    { tos := fun j => if j = a.Start then a.End else c.tos j,
      ids := fun j => if j = a.Start then a.Id else c.ids j,
      inter := fun j => if a.Start < j ∧ j ≤ a.End then true else c.inter j }
  else c

def foldCover (N : Nat) (c : Cover) (arcs : List TArc) : Cover :=
  arcs.foldl (coverStep N) c

def buildCover (N : Nat) (unkId : Int) (arcs : List TArc) : Cover :=
  foldCover N (initCover unkId) arcs

/-- The output-reconstruction loop (lines 253-268), with explicit fuel.
Each iteration at position `pos < N` emits `(ids[pos], pos, tos[pos])`
and continues at `tos[pos] + 1` (`start = end` followed by the `++` of
the `for` loop).  The boolean is `true` when the loop condition
`pos < N` became false within the given fuel, i.e. the loop finished. -/
def walk (c : Cover) (N : Nat) : Nat → Nat → List Triple × Bool
  | 0, pos => ([], decide (N ≤ pos))
  | fuel+1, pos =>
    if N ≤ pos then ([], true)
    else
      (⟨c.ids pos, pos, c.tos pos⟩ :: (walk c N fuel (c.tos pos + 1)).1,
       (walk c N fuel (c.tos pos + 1)).2)

/-- The logical triple sequence produced by `Process`: enumeration,
sort, cover construction and reconstruction walk.  `none` models a
`LogAssert` failure during enumeration; the boolean records whether the
reconstruction loop finished within `fuel` iterations. -/
def ProcessTriples (m : Model) (input : List Nat) (unkId : Int) (fuel : Nat) :
    Option (List Triple × Bool) :=
  match buildArcs m input unkId with
  | none => none
  | some arcs =>
    some (walk (buildCover input.length unkId (sortArcs arcs)) input.length fuel 0)

/-- Write one tuple at offset `k` of the output buffer:
`pOut[k] = id; pOut[k+1] = start; pOut[k+2] = end`. -/
def write3 (buf : Nat → Int) (k : Nat) (t : Triple) : Nat → Int :=
  fun j =>
    if j = k then t.id
    else if j = k + 1 then (t.s : Int)
    else if j = k + 2 then (t.e : Int)
    else buf j

/-- The buffer writes of the copy loop: the tuple at logical offset `k`
is written only when `k + 3 <= MaxOutSize` (line 260). -/
def writeAux (maxOut : Nat) : List Triple → Nat → (Nat → Int) → (Nat → Int)
  | [], _, buf => buf
  | t :: rest, k, buf =>
    writeAux maxOut rest (k+3) (if k + 3 ≤ maxOut then write3 buf k t else buf)

def writeOut (ts : List Triple) (maxOut : Nat) (buf : Nat → Int) : Nat → Int :=
  writeAux maxOut ts 0 buf

/-- The output buffer layout `[id₀, s₀, e₀, id₁, s₁, e₁, ...]`. -/
def flatTriples : List Triple → List Int
  | [] => []
  | t :: rest => t.id :: (t.s : Int) :: (t.e : Int) :: flatTriples rest

/-- The whole call, including the early return for empty input
(lines 120-122), the `LogAssert (InSize <= FALimits::MaxArrSize)` input
cap (line 124, the cap value itself is a parameter: `FALimits.h` is
outside the given sources, the spec only states that over-long input is
fatal), the buffer writes and the returned size.  The first component
is the output buffer after the call, the second is `some ret` on normal
completion and `none` when the call aborts (failed assertion) or the
reconstruction loop did not finish within `fuel` iterations. -/
def ProcessRun (m : Model) (input : List Nat) (unkId : Int) (cap : Nat)
    (maxOut : Nat) (fuel : Nat) (out0 : Nat → Int) : (Nat → Int) × Option Nat :=
  if input.length = 0 then (out0, some 0)
  else if cap < input.length then (out0, none)
  else
    match ProcessTriples m input unkId fuel with
    | none => (out0, none)
    | some (ts, fin) =>
      (writeOut ts maxOut out0, if fin then some (3 * ts.length) else none)

/-- `isChain N pos ts = true` when the spans of `ts`, in emission order,
tile `[pos, N-1]` contiguously: the first span starts at `pos`, each
span is nonempty and ends before `N`, each subsequent span starts right
after the previous one, and the last span ends at `N-1`. -/
def isChain (N : Nat) : Nat → List Triple → Bool
  | pos, [] => pos == N
  | pos, t :: rest =>
    t.s == pos && decide (pos ≤ t.e) && decide (t.e < N) && isChain N (t.e + 1) rest

/-- The model of §8 of the spec: vocabulary `{"a":1, "ab":2, "b":3, "abc":4}`
over 8-bit input (`a` = 97, `b` = 98, `c` = 99).  The Mealy output
weights are chosen so that the path sums 0, 1, 4, 3 are distinct
perfect-hash keys. -/
def mABC : Model where
  initial := 0
  getDestOw := fun st c =>
    if st = 0 ∧ c = 97 then (1, 0)
    else if st = 1 ∧ c = 98 then (2, 1)
    else if st = 2 ∧ c = 99 then (3, 3)
    else if st = 0 ∧ c = 98 then (4, 3)
    else (-1, 0)
  isFinal := fun st => st = 1 || st = 2 || st = 3 || st = 4
  i2info := fun k =>
    if k = 0 then [1]
    else if k = 1 then [2]
    else if k = 4 then [4]
    else if k = 3 then [3]
    else []

/-- A valid model whose vocabulary is the single segment `"ab"` with
id 1: accepting paths exist exactly for `"ab"`, and the only accepting
path sum (0) is mapped to the nonempty slice `[1]`. -/
def mAB : Model where
  initial := 0
  getDestOw := fun st c =>
    if st = 0 ∧ c = 97 then (1, 0)
    else if st = 1 ∧ c = 98 then (2, 0)
    else (-1, 0)
  isFinal := fun st => st = 2
  i2info := fun k => if k = 0 then [1] else []

/-- A model whose DFA accepts no prefix of any input: every transition
from the initial state is missing. -/
def mDead : Model where
  initial := 0
  getDestOw := fun _ _ => (-1, 0)
  isFinal := fun _ => false
  i2info := fun _ => []

/-- The reconstruction loop of `Process` never finishes, whatever fuel
it is given: the C loop runs forever (and in particular never returns). -/
def ProcessDiverges (m : Model) (input : List Nat) (unkId : Int) : Prop :=
  ∀ (fuel : Nat) (r : List Triple × Bool),
    ProcessTriples m input unkId fuel = some r → r.2 = false

/-- The cover tables `Process` builds for the model `mAB` on input
`"abx"` (`x` = 120): the arc buffer is `[⟨0,1,1⟩, ⟨1,2,100⟩]` and the
unknown arc is rejected because position 1 is interior of the accepted
arc `⟨0,1,1⟩`, leaving position 2 uncovered. -/
def covAB : Cover := buildCover 3 100 (sortArcs [⟨0, 1, 1⟩, ⟨1, 2, 100⟩])

/-- Position `p` has a single-code-unit vocabulary match: the Mealy DFA
has a transition from the initial state on `p`-th code unit leading to a
final state.  This is the usual situation for BPE models, whose
vocabularies contain every base character/byte. -/
def singleOK (m : Model) (c : Nat) : Prop :=
  (m.getDestOw m.initial c).1 ≠ -1 ∧ m.isFinal (m.getDestOw m.initial c).1 = true

instance (m : Model) (c : Nat) : Decidable (singleOK m c) := by
  unfold singleOK; infer_instance

/-- Invariants of the cover tables maintained by the cover-construction
loop, for arcs with `Start ≤ End < N`:
`tos` entries are in range and either unassigned (`0`) or at least their
index; the strict interior of every assigned span is marked; the
position right after an assigned span at a non-interior index is never
marked; nothing at or beyond `N` (or at 0) is marked; and every marked
position lies strictly inside some assigned span. -/
structure CovOK (N : Nat) (c : Cover) : Prop where
  tos_lt : ∀ q, q < N → c.tos q < N
  tos_ge : ∀ q, c.tos q = 0 ∨ q ≤ c.tos q
  covered : ∀ q p, q < p → p ≤ c.tos q → c.inter p = true
  next_free : ∀ q, c.inter q = false → q ≤ c.tos q → c.inter (c.tos q + 1) = false
  inter_hi : ∀ j, N ≤ j → c.inter j = false
  inter_zero : c.inter 0 = false
  marked_src : ∀ r, c.inter r = true → ∃ q, q < r ∧ q ≤ c.tos q ∧ r ≤ c.tos q

/-- Position `p` of the cover is not a trap for the reconstruction walk:
it is either interior (the walk never lands on it) or its `tos` entry
points at or past it. -/
def Good (c : Cover) (p : Nat) : Prop := c.inter p = true ∨ p ≤ c.tos p

/-- The sub-list of arcs the cover-construction loop accepts, in
processing order. -/
def acceptedList (N : Nat) (c : Cover) : List TArc → List TArc
  | [] => []
  | a :: rest =>
    if accepts N c a then a :: acceptedList N (coverStep N c a) rest
    else acceptedList N (coverStep N c a) rest

/-- The id of the last arc of the list, or the default. -/
def lastIdD : List TArc → Int → Int
  | [], d => d
  | a :: l, _ => lastIdD l a.Id

/-- The end position of the last arc of the list, or the default. -/
def lastEndD : List TArc → Nat → Nat
  | [], d => d
  | a :: l, _ => lastEndD l a.End

/-- The guarantee `std::qsort` gives for the call on lines 193-210: the
buffer afterwards is a permutation of its former content, ordered by
the comparator (`cmp(out[i], out[j]) <= 0` whenever `i < j`, which for
the source comparator is exactly `arcLE`).  The C standard leaves the
relative order of comparator-equal elements — arcs equal in both id
and start — unspecified, so the sort step is faithfully a relation,
not a function; `sortArcs` is one compliant realization. -/
def QsortOutput (arcs out : List TArc) : Prop :=
  out.Perm arcs ∧ out.Pairwise (fun a b => arcLE a b = true)

/-- The states the inner enumeration loop can hold at the top of an
iteration, over any input: the initial state, and every live (non `-1`)
destination of a held state.  The loop breaks on a `-1` destination
before querying anything about it, so states behind a dead transition
are excluded.  A model whose DFA accepts no prefix of any input is one
where `IsFinal` is false on every live destination of a held state. -/
inductive Reach (m : Model) : Int → Prop where
  | init : Reach m m.initial
  | step : ∀ {st : Int} (c : Nat), Reach m st →
      (m.getDestOw st c).1 ≠ -1 → Reach m (m.getDestOw st c).1

/-! ### Basic facts about the reconstruction loop -/

theorem walk_succ_lt (c : Cover) (N fuel pos : Nat) (h : pos < N) :
    walk c N (fuel+1) pos =
      (⟨c.ids pos, pos, c.tos pos⟩ :: (walk c N fuel (c.tos pos + 1)).1,
       (walk c N fuel (c.tos pos + 1)).2) := by
  simp [walk, Nat.not_le.mpr h]

theorem walk_fin_succ (c : Cover) (N fuel pos : Nat) (h : pos < N) :
    (walk c N (fuel+1) pos).2 = (walk c N fuel (c.tos pos + 1)).2 := by
  rw [walk_succ_lt c N fuel pos h]

theorem walk_finish (c : Cover) (N fuel pos : Nat) (h : N ≤ pos) :
    walk c N fuel pos = ([], true) := by
  cases fuel <;> simp [walk, h]

/-! ### Claims C9, C8, C3, C5 and the counterexamples for C1, C2 -/

/-- Claim C9: when the input length N is 0, `Process` returns 0 and
performs no writes to the output buffer. -/
theorem C9_empty_input (m : Model) (input : List Nat) (unkId : Int)
    (cap maxOut fuel : Nat) (out0 : Nat → Int) (h : input.length = 0) :
    ProcessRun m input unkId cap maxOut fuel out0 = (out0, some 0) := by
  simp [ProcessRun, h]

theorem C9_empty_input_wit :
    ProcessRun mABC [] 100 10 10 4 (fun _ => (0 : Int)) = ((fun _ => (0 : Int)), some 0) :=
  C9_empty_input mABC [] 100 10 10 4 (fun _ => (0 : Int)) rfl

/-- Claim C8: for every call whose input length exceeds the input cap
(`FALimits::MaxArrSize`), `Process` fails at call time and the output
buffer is not written: the call returns the initial buffer unchanged
together with the failure marker.  (spec-modelled: `LogAssert` and
`FALimits.h` are outside the given sources; per spec §7 an input-size
violation is fatal to the call and surfaced to the caller.) -/
theorem C8_input_cap (m : Model) (input : List Nat) (unkId : Int)
    (cap maxOut fuel : Nat) (out0 : Nat → Int) (h : cap < input.length) :
    ProcessRun m input unkId cap maxOut fuel out0 = (out0, none) := by
  have h0 : ¬ input.length = 0 := by omega
  simp [ProcessRun, h0, h]

theorem C8_input_cap_wit :
    ProcessRun mAB [5, 6] 100 1 10 4 (fun _ => (0 : Int)) = ((fun _ => (0 : Int)), none) :=
  C8_input_cap mAB [5, 6] 100 1 10 4 (fun _ => (0 : Int)) (by decide)

/-- Claim C3: on the model with vocabulary `{"a":1, "ab":2, "b":3, "abc":4}`
and `unk_id = 100`, `Process` on input `"abc"` emits exactly the single
triple `(4, 0, 2)` (and the reconstruction loop finishes). -/
theorem C3_abc_single_triple :
    ProcessTriples mABC [97, 98, 99] 100 4 = some ([⟨4, 0, 2⟩], true) := by
  decide

/-- Claim C5: when nothing matches from `start`, the fallback coalesces
with a trailing unknown arc (extending its end to `start`) and otherwise
appends a fresh `{start, start, unk_id}` arc; in particular a trailing
arc whose id differs from `unk_id` (e.g. a matched arc appended for an
earlier start) suppresses coalescing. -/
theorem C5_unknown_fallback (m : Model) (input : List Nat) (unkId : Int)
    (arcs : List TArc) (start : Nat)
    (hnm : walkFrom m input start (input.length - start) start m.initial 0 = some []) :
    (∀ la, arcs.getLast? = some la → la.Id = unkId →
      addStart m input unkId arcs start =
        some (arcs.dropLast ++ [⟨la.Start, start, unkId⟩])) ∧
    (∀ la, arcs.getLast? = some la → la.Id ≠ unkId →
      addStart m input unkId arcs start = some (arcs ++ [⟨start, start, unkId⟩])) ∧
    (arcs.getLast? = none →
      addStart m input unkId arcs start = some (arcs ++ [⟨start, start, unkId⟩])) := by
  unfold addStart
  rw [hnm]
  refine ⟨?_, ?_, ?_⟩
  · intro la hla hid
    rw [hla]
    simp [hid]
  · intro la hla hid
    rw [hla]
    simp [hid]
  · intro hla
    rw [hla]

theorem C5_unknown_fallback_wit :
    addStart mAB [97, 98, 120] 100 [⟨0, 1, 1⟩] 2 = some [⟨0, 1, 1⟩, ⟨2, 2, 100⟩] ∧
    addStart mAB [97, 98, 120] 100 [⟨1, 1, 100⟩] 2 = some [⟨1, 2, 100⟩] := by
  constructor
  · exact (C5_unknown_fallback mAB [97, 98, 120] 100 [⟨0, 1, 1⟩] 2 (by decide)).2.1
      ⟨0, 1, 1⟩ (by decide) (by decide)
  · exact (C5_unknown_fallback mAB [97, 98, 120] 100 [⟨1, 1, 100⟩] 2 (by decide)).1
      ⟨1, 1, 100⟩ (by decide) rfl

/-- Claim C1 counterexample: `mAB` is a valid model (its only accepting
path, for `"ab"`, has a key mapped to the nonempty slice `[1]`), yet on
input `"abx"` (length 3) the triples `Process` emits do not partition
`[0, 2]`: the walk emits `(1,0,1)` then `(100,2,0)` (an inverted span)
and then `(100,1,0)` over and over, repeating start position 1 and never
finishing. -/
theorem C1_cex :
    ProcessTriples mAB [97, 98, 120] 100 5 =
      some ([⟨1, 0, 1⟩, ⟨100, 2, 0⟩, ⟨100, 1, 0⟩, ⟨100, 1, 0⟩, ⟨100, 1, 0⟩], false) ∧
    isChain 3 0 [⟨1, 0, 1⟩, ⟨100, 2, 0⟩, ⟨100, 1, 0⟩, ⟨100, 1, 0⟩, ⟨100, 1, 0⟩] = false := by
  exact ⟨by decide, by decide⟩

theorem covAB_t0 : covAB.tos 0 + 1 = 2 := by decide

theorem covAB_t1 : covAB.tos 1 + 1 = 1 := by decide

theorem covAB_t2 : covAB.tos 2 + 1 = 1 := by decide

theorem walkAB_stuck1 : ∀ fuel, (walk covAB 3 fuel 1).2 = false := by
  intro fuel
  induction fuel with
  | zero => decide
  | succ f ih =>
    rw [walk_fin_succ covAB 3 f 1 (by omega), covAB_t1]
    exact ih

/-- Claim C2 counterexample: on the valid model `mAB` and input `"abx"`,
the output-reconstruction walk of `Process` never terminates: whatever
fuel it is given, the loop condition `pos < N` never becomes false (the
walk cycles through position 1 forever), so it never reaches `pos = N`.
The second conjunct shows the run gets past arc enumeration (no
assertion fails). -/
theorem C2_cex :
    ProcessDiverges mAB [97, 98, 120] 100 ∧
    ProcessTriples mAB [97, 98, 120] 100 0 ≠ none := by
  constructor
  · intro fuel r h
    have harcs : buildArcs mAB [97, 98, 120] 100 = some [⟨0, 1, 1⟩, ⟨1, 2, 100⟩] := by
      decide
    unfold ProcessTriples at h
    rw [harcs] at h
    injection h with h2
    rw [← h2]
    show (walk covAB 3 fuel 0).2 = false
    match fuel with
    | 0 => decide
    | 1 => decide
    | (f+2) =>
      rw [walk_fin_succ covAB 3 (f+1) 0 (by omega), covAB_t0,
          walk_fin_succ covAB 3 f 2 (by omega), covAB_t2]
      exact walkAB_stuck1 f
  · decide

/-! ### Claim C4: the arc sort -/

theorem arcLE_trans : ∀ a b c : TArc, arcLE a b → arcLE b c → arcLE a c := by
  intro a b c hab hbc
  simp only [arcLE, decide_eq_true_eq] at hab hbc ⊢
  omega

theorem arcLE_total : ∀ a b : TArc, arcLE a b || arcLE b a := by
  intro a b
  simp only [arcLE, Bool.or_eq_true, decide_eq_true_eq]
  omega

/-- Claim C4 counterexample: `std::qsort` guarantees only a
comparator-respecting permutation.  For the buffer
`[⟨0,1,7⟩, ⟨0,2,7⟩]` — two distinct arcs equal in both id and start —
the reversed order `[⟨0,2,7⟩, ⟨0,1,7⟩]` is also a compliant qsort
output, and in it the two arcs do not keep their original insertion
order.  The insertion-order clause is therefore not a property the
source guarantees. -/
theorem C4_cex :
    QsortOutput [⟨0, 1, 7⟩, ⟨0, 2, 7⟩] [⟨0, 2, 7⟩, ⟨0, 1, 7⟩] ∧
    ¬ List.Sublist [(⟨0, 1, 7⟩ : TArc), ⟨0, 2, 7⟩] [⟨0, 2, 7⟩, ⟨0, 1, 7⟩] := by
  constructor
  · exact ⟨by decide, by decide⟩
  · intro h
    have heq := h.eq_of_length rfl
    exact absurd heq (by decide)

theorem arcLE_antisym_pair {a b : TArc} (h1 : arcLE a b = true) (h2 : arcLE b a = true) :
    a.Id = b.Id ∧ a.Start = b.Start := by
  simp only [arcLE, decide_eq_true_eq] at h1 h2
  omega

theorem sorted_perm_eq : ∀ (l1 l2 : List TArc),
    l1.Perm l2 →
    l1.Pairwise (fun a b => arcLE a b = true) →
    l2.Pairwise (fun a b => arcLE a b = true) →
    (∀ a ∈ l1, ∀ b ∈ l1, a.Id = b.Id → a.Start = b.Start → a = b) →
    l1 = l2 := by
  intro l1
  induction l1 with
  | nil =>
    intro l2 hp _ _ _
    exact (hp.symm.eq_nil).symm
  | cons a t1 ih =>
    intro l2 hp hs1 hs2 hd
    cases l2 with
    | nil => exact (List.cons_ne_nil a t1 hp.eq_nil).elim
    | cons b t2 =>
      have hab : a = b := by
        by_cases heq : a = b
        · exact heq
        · have hbmem : b ∈ a :: t1 := hp.symm.subset (List.mem_cons_self b t2)
          have hamem : a ∈ b :: t2 := hp.subset (List.mem_cons_self a t1)
          have hb1 : b ∈ t1 := by
            rcases List.mem_cons.mp hbmem with h | h
            · exact absurd h.symm heq
            · exact h
          have ha2 : a ∈ t2 := by
            rcases List.mem_cons.mp hamem with h | h
            · exact absurd h heq
            · exact h
          have hle1 : arcLE a b = true := (List.pairwise_cons.mp hs1).1 b hb1
          have hle2 : arcLE b a = true := (List.pairwise_cons.mp hs2).1 a ha2
          obtain ⟨hid, hst⟩ := arcLE_antisym_pair hle1 hle2
          exact hd a (List.mem_cons_self a t1) b (List.mem_cons.mpr (Or.inr hb1)) hid hst
      subst hab
      have ht : t1 = t2 := by
        apply ih t2 hp.cons_inv (List.pairwise_cons.mp hs1).2 (List.pairwise_cons.mp hs2).2
        intro x hx y hy
        exact hd x (List.mem_cons.mpr (Or.inr hx)) y (List.mem_cons.mpr (Or.inr hy))
      rw [ht]

/-- Claim C4 (amended): the qsort call sorts the arc buffer by
`(id ascending, start ascending)`: every compliant output — a
permutation of the buffer ordered by the source comparator — has
nondecreasing ids, and arcs of equal id appear in nondecreasing start
order; `sortArcs` is one compliant output, and whenever no two arcs of
the buffer agree on both id and start (the case for conforming models,
whose distinct segments have distinct ids) the compliant output is
unique, so every `std::qsort` implementation produces `sortArcs`.  The
clause that arcs equal in both id and start keep their insertion order
is dropped: `std::qsort` leaves the order of comparator-equal elements
unspecified (see `C4_cex`). -/
theorem C4_sort_order :
    (∀ arcs : List TArc, QsortOutput arcs (sortArcs arcs)) ∧
    (∀ arcs out : List TArc, QsortOutput arcs out →
      out.Pairwise (fun a b => a.Id ≤ b.Id ∧ (a.Id = b.Id → a.Start ≤ b.Start))) ∧
    (∀ arcs out : List TArc,
      (∀ a ∈ arcs, ∀ b ∈ arcs, a.Id = b.Id → a.Start = b.Start → a = b) →
      QsortOutput arcs out → out = sortArcs arcs) := by
  refine ⟨?_, ?_, ?_⟩
  · intro arcs
    exact ⟨List.mergeSort_perm arcs arcLE,
      List.sorted_mergeSort arcLE_trans arcLE_total arcs⟩
  · intro arcs out hq
    refine hq.2.imp ?_
    intro a b hab
    simp only [arcLE, decide_eq_true_eq] at hab
    exact ⟨by omega, fun he => by omega⟩
  · intro arcs out hd hq
    apply sorted_perm_eq
    · exact hq.1.trans (List.mergeSort_perm arcs arcLE).symm
    · exact hq.2
    · exact List.sorted_mergeSort arcLE_trans arcLE_total arcs
    · intro x hx y hy
      exact hd x (hq.1.subset hx) y (hq.1.subset hy)

theorem C4_sort_order_wit :
    QsortOutput [⟨1, 1, 5⟩, ⟨0, 0, 3⟩] (sortArcs [⟨1, 1, 5⟩, ⟨0, 0, 3⟩]) ∧
    (sortArcs [⟨1, 1, 5⟩, ⟨0, 0, 3⟩]).Pairwise
      (fun a b => a.Id ≤ b.Id ∧ (a.Id = b.Id → a.Start ≤ b.Start)) ∧
    [(⟨0, 0, 3⟩ : TArc), ⟨1, 1, 5⟩] = sortArcs [⟨1, 1, 5⟩, ⟨0, 0, 3⟩] := by
  have h := C4_sort_order
  exact ⟨h.1 [⟨1, 1, 5⟩, ⟨0, 0, 3⟩],
    h.2.1 [⟨1, 1, 5⟩, ⟨0, 0, 3⟩] _ (h.1 [⟨1, 1, 5⟩, ⟨0, 0, 3⟩]),
    h.2.2 [⟨1, 1, 5⟩, ⟨0, 0, 3⟩] [⟨0, 0, 3⟩, ⟨1, 1, 5⟩] (by decide)
      ⟨by decide, by decide⟩⟩

/-! ### Claim C7: output sizing and buffer writes -/

theorem write3_ne (buf : Nat → Int) (k : Nat) (t : Triple) (j : Nat)
    (h1 : ¬ j = k) (h2 : ¬ j = k + 1) (h3 : ¬ j = k + 2) :
    write3 buf k t j = buf j := by
  simp [write3, h1, h2, h3]

theorem writeAux_lt (maxOut : Nat) (ts : List Triple) :
    ∀ (k : Nat) (buf : Nat → Int) (j : Nat), j < k →
      writeAux maxOut ts k buf j = buf j := by
  induction ts with
  | nil => intro k buf j _; rfl
  | cons t rest ih =>
    intro k buf j hj
    show writeAux maxOut rest (k+3)
        (if k + 3 ≤ maxOut then write3 buf k t else buf) j = buf j
    rw [ih (k+3) _ j (by omega)]
    by_cases hfit : k + 3 ≤ maxOut
    · rw [if_pos hfit]
      exact write3_ne buf k t j (by omega) (by omega) (by omega)
    · rw [if_neg hfit]

theorem writeAux_content (maxOut : Nat) (ts : List Triple) :
    ∀ (k : Nat) (buf : Nat → Int), k + 3 * ts.length ≤ maxOut →
      ∀ j, j < 3 * ts.length →
        writeAux maxOut ts k buf (k + j) = (flatTriples ts).getD j 0 := by
  induction ts with
  | nil => intro k buf _ j hj; simp at hj
  | cons t rest ih =>
    intro k buf hfit j hj
    have hlen : (t :: rest).length = rest.length + 1 := List.length_cons t rest
    rw [hlen] at hfit hj
    have hk3 : k + 3 ≤ maxOut := by omega
    show writeAux maxOut rest (k+3)
        (if k + 3 ≤ maxOut then write3 buf k t else buf) (k + j) =
      (flatTriples (t :: rest)).getD j 0
    rw [if_pos hk3]
    by_cases hj3 : j < 3
    · rw [writeAux_lt maxOut rest (k+3) _ (k+j) (by omega)]
      interval_cases j
      · simp [write3, flatTriples]
      · simp [write3, flatTriples]
      · simp [write3, flatTriples]
    · obtain ⟨j2, rfl⟩ : ∃ j2, j = j2 + 3 := ⟨j - 3, by omega⟩
      have harith : k + (j2 + 3) = (k + 3) + j2 := by omega
      rw [harith, ih (k+3) _ (by omega) j2 (by omega)]
      show (flatTriples rest).getD j2 0 =
        (t.id :: (t.s : Int) :: (t.e : Int) :: flatTriples rest).getD (j2 + 3) 0
      simp [List.getD_cons_succ]

theorem writeAux_writes (maxOut : Nat) (ts : List Triple) :
    ∀ (k : Nat) (buf : Nat → Int) (j : Nat),
      ¬ writeAux maxOut ts k buf j = buf j →
      ∃ t, t < ts.length ∧ k + 3 * t + 3 ≤ maxOut ∧ k + 3 * t ≤ j ∧ j < k + 3 * t + 3 := by
  induction ts with
  | nil => intro k buf j hne; exact absurd rfl hne
  | cons a rest ih =>
    intro k buf j hne
    by_cases hmid : (if k + 3 ≤ maxOut then write3 buf k a else buf) j = buf j
    · have h2 : ¬ writeAux maxOut rest (k+3)
          (if k + 3 ≤ maxOut then write3 buf k a else buf) j
          = (if k + 3 ≤ maxOut then write3 buf k a else buf) j := by
        intro he
        refine hne ?_
        show writeAux maxOut rest (k+3)
          (if k + 3 ≤ maxOut then write3 buf k a else buf) j = buf j
        rw [he, hmid]
      obtain ⟨t, ht1, ht2, ht3, ht4⟩ := ih (k+3) _ j h2
      refine ⟨t + 1, ?_, by omega, by omega, by omega⟩
      simp only [List.length_cons]
      omega
    · by_cases hfit : k + 3 ≤ maxOut
      · rw [if_pos hfit] at hmid
        have hloc : j = k ∨ j = k + 1 ∨ j = k + 2 := by
          by_contra hcon
          push_neg at hcon
          exact hmid (write3_ne buf k a j hcon.1 hcon.2.1 hcon.2.2)
        refine ⟨0, by simp, by omega, by omega, by omega⟩
      · rw [if_neg hfit] at hmid
        exact absurd rfl hmid

/-- Claim C7: whenever the call completes, the return value is exactly
3 times the number of logical triples; when that value fits in the
capacity the buffer prefix holds the triples in the layout
`[id, start, end, ...]`; and any buffer cell the call changes belongs to
a whole written tuple, one that fit entirely within `max_out`. -/
theorem C7_sizing (m : Model) (input : List Nat) (unkId : Int)
    (cap maxOut fuel : Nat) (out0 : Nat → Int) (ts : List Triple)
    (h : ProcessTriples m input unkId fuel = some (ts, true))
    (hcap : input.length ≤ cap) :
    (ProcessRun m input unkId cap maxOut fuel out0).2 = some (3 * ts.length) ∧
    (3 * ts.length ≤ maxOut → ∀ j, j < 3 * ts.length →
      (ProcessRun m input unkId cap maxOut fuel out0).1 j = (flatTriples ts).getD j 0) ∧
    (∀ j, ¬ (ProcessRun m input unkId cap maxOut fuel out0).1 j = out0 j →
      ∃ t, t < ts.length ∧ 3 * t + 3 ≤ maxOut ∧ 3 * t ≤ j ∧ j < 3 * t + 3) := by
  by_cases h0 : input.length = 0
  · obtain rfl : input = [] := List.length_eq_zero.mp h0
    have hb : buildArcs m [] unkId = some [] := rfl
    have hpt : ProcessTriples m [] unkId fuel = some (([] : List Triple), true) := by
      unfold ProcessTriples
      rw [hb]
      simp only [List.length_nil]
      rw [walk_finish _ 0 fuel 0 (Nat.le_refl 0)]
    rw [hpt] at h
    injection h with h2
    injection h2 with h3 h4
    obtain rfl : ts = [] := h3.symm
    have hrun : ProcessRun m [] unkId cap maxOut fuel out0 = (out0, some 0) := rfl
    rw [hrun]
    refine ⟨rfl, ?_, ?_⟩
    · intro _ j hj; simp at hj
    · intro j hne; exact absurd rfl hne
  · have hrun : ProcessRun m input unkId cap maxOut fuel out0
        = (writeOut ts maxOut out0, some (3 * ts.length)) := by
      unfold ProcessRun
      rw [if_neg h0, if_neg (by omega), h]
      rfl
    rw [hrun]
    refine ⟨rfl, ?_, ?_⟩
    · intro hle j hj
      have hw := writeAux_content maxOut ts 0 out0 (by omega) j hj
      show writeAux maxOut ts 0 out0 j = (flatTriples ts).getD j 0
      simpa only [Nat.zero_add] using hw
    · intro j hne
      obtain ⟨t, h1, h2, h3, h4⟩ := writeAux_writes maxOut ts 0 out0 j hne
      exact ⟨t, h1, by omega, by omega, by omega⟩

theorem C7_sizing_wit :
    (ProcessRun mABC [97, 98, 99] 100 10 3 4 (fun _ => (0 : Int))).2 = some 3 ∧
    (ProcessRun mABC [97, 98, 99] 100 10 3 4 (fun _ => (0 : Int))).1 0 = 4 ∧
    (ProcessRun mABC [97, 98, 99] 100 10 3 4 (fun _ => (0 : Int))).1 1 = 0 ∧
    (ProcessRun mABC [97, 98, 99] 100 10 3 4 (fun _ => (0 : Int))).1 2 = 2 := by
  have h := C7_sizing mABC [97, 98, 99] 100 10 3 4 (fun _ => (0 : Int)) [⟨4, 0, 2⟩]
    (by decide) (by decide)
  refine ⟨h.1, ?_, ?_, ?_⟩
  · have := h.2.1 (by decide) 0 (by decide); simpa [flatTriples] using this
  · have := h.2.1 (by decide) 1 (by decide); simpa [flatTriples] using this
  · have := h.2.1 (by decide) 2 (by decide); simpa [flatTriples] using this

/-! ### Claim C6: vocabulary-empty model -/

theorem walkFrom_nomatch {m : Model} {input : List Nat}
    (hnf : ∀ st c, Reach m st → (m.getDestOw st c).1 ≠ -1 →
      m.isFinal (m.getDestOw st c).1 = false) (start : Nat) :
    ∀ (rem i : Nat) (state sumOw : Int), Reach m state →
      walkFrom m input start rem i state sumOw = some [] := by
  intro rem
  induction rem with
  | zero => intro i state sumOw _; rfl
  | succ r ih =>
    intro i state sumOw hreach
    simp only [walkFrom]
    by_cases hd : (m.getDestOw state (input.getD i 0)).1 = -1
    · rw [if_pos hd]
    · rw [if_neg hd,
        if_neg (by rw [hnf state (input.getD i 0) hreach hd]; simp)]
      exact ih (i+1) _ _ (Reach.step (input.getD i 0) hreach hd)

theorem buildArcsAux_dead (m : Model) (input : List Nat) (unkId : Int)
    (hwf : ∀ st : Nat, walkFrom m input st (input.length - st) st m.initial 0 = some []) :
    ∀ (starts : List Nat) (a b : Nat),
      buildArcsAux m input unkId starts [⟨a, b, unkId⟩] =
        some [⟨a, starts.getLastD b, unkId⟩] := by
  intro starts
  induction starts with
  | nil => intro a b; rfl
  | cons st rest ih =>
    intro a b
    have hstep : addStart m input unkId [⟨a, b, unkId⟩] st = some [⟨a, st, unkId⟩] := by
      unfold addStart
      rw [hwf st]
      simp [List.getLast?]
    show (match addStart m input unkId [⟨a, b, unkId⟩] st with
      | none => none
      | some arcs2 => buildArcsAux m input unkId rest arcs2)
      = some [⟨a, (st :: rest).getLastD b, unkId⟩]
    rw [hstep, List.getLastD_cons]
    exact ih a st

theorem map_succ_range_getLastD : ∀ n : Nat, ((List.range n).map Nat.succ).getLastD 0 = n := by
  intro n
  induction n with
  | zero => rfl
  | succ k ih =>
    rw [List.range_succ, List.map_append]
    simp [List.getLastD_concat]

theorem buildArcs_dead (m : Model) (input : List Nat) (unkId : Int)
    (hwf : ∀ st : Nat, walkFrom m input st (input.length - st) st m.initial 0 = some [])
    (hN : 1 ≤ input.length) :
    buildArcs m input unkId = some [⟨0, input.length - 1, unkId⟩] := by
  obtain ⟨n, hn⟩ : ∃ n, input.length = n + 1 := ⟨input.length - 1, by omega⟩
  have h0 : addStart m input unkId [] 0 = some [⟨0, 0, unkId⟩] := by
    unfold addStart
    rw [hwf 0]
    rfl
  unfold buildArcs
  rw [hn, List.range_succ_eq_map]
  show (match addStart m input unkId [] 0 with
    | none => none
    | some arcs2 => buildArcsAux m input unkId ((List.range n).map Nat.succ) arcs2)
    = some [⟨0, n + 1 - 1, unkId⟩]
  rw [h0]
  show buildArcsAux m input unkId ((List.range n).map Nat.succ) [⟨0, 0, unkId⟩]
    = some [⟨0, n + 1 - 1, unkId⟩]
  rw [buildArcsAux_dead m input unkId hwf ((List.range n).map Nat.succ) 0 0]
  rw [map_succ_range_getLastD n]
  rfl

/-- Claim C6: for a model whose vocabulary matches nothing — the DFA
accepts no prefix of any input, i.e. `IsFinal` is false on every live
destination of a state the inner loop can hold (`Reach`) — every input
of length `N ≥ 1` with a nonnegative `unk_id` makes `Process` emit
exactly the single triple `(unk_id, 0, N-1)` and return 3.  The class
includes models with live but never-accepting transitions. -/
theorem C6_vocab_empty (m : Model) (input : List Nat) (unkId : Int)
    (cap maxOut fuel : Nat) (out0 : Nat → Int)
    (hnf : ∀ st c, Reach m st → (m.getDestOw st c).1 ≠ -1 →
      m.isFinal (m.getDestOw st c).1 = false)
    (hN : 1 ≤ input.length) (hunk : 0 ≤ unkId) (hfuel : 1 ≤ fuel)
    (hcap : input.length ≤ cap) :
    ProcessTriples m input unkId fuel = some ([⟨unkId, 0, input.length - 1⟩], true) ∧
    (ProcessRun m input unkId cap maxOut fuel out0).2 = some 3 := by
  have hwf : ∀ st : Nat,
      walkFrom m input st (input.length - st) st m.initial 0 = some [] :=
    fun st => walkFrom_nomatch hnf st (input.length - st) st m.initial 0 Reach.init
  have harcs := buildArcs_dead m input unkId hwf hN
  have hsub1 : input.length - 1 + 1 = input.length := by omega
  have hpt : ProcessTriples m input unkId fuel
      = some ([⟨unkId, 0, input.length - 1⟩], true) := by
    unfold ProcessTriples
    rw [harcs]
    show some (walk (buildCover input.length unkId
        (sortArcs [⟨0, input.length - 1, unkId⟩])) input.length fuel 0)
      = some ([⟨unkId, 0, input.length - 1⟩], true)
    have hsort : sortArcs [⟨0, input.length - 1, unkId⟩] = [⟨0, input.length - 1, unkId⟩] :=
      List.mergeSort_singleton _
    rw [hsort]
    have hacc : accepts input.length (initCover unkId) ⟨0, input.length - 1, unkId⟩ = true := by
      simp [accepts, initCover, hsub1]
    have hcov : buildCover input.length unkId [⟨0, input.length - 1, unkId⟩]
        = coverStep input.length (initCover unkId) ⟨0, input.length - 1, unkId⟩ := rfl
    rw [hcov]
    unfold coverStep
    rw [if_pos hacc]
    obtain ⟨f, rfl⟩ : ∃ f, fuel = f + 1 := ⟨fuel - 1, by omega⟩
    rw [walk_succ_lt _ input.length f 0 (by omega)]
    show some ((⟨unkId, 0, input.length - 1⟩ : Triple) ::
        (walk _ input.length f (input.length - 1 + 1)).1,
        (walk _ input.length f (input.length - 1 + 1)).2)
      = some ([⟨unkId, 0, input.length - 1⟩], true)
    rw [hsub1, walk_finish _ input.length f input.length (Nat.le_refl _)]
  refine ⟨hpt, ?_⟩
  have hrun : ProcessRun m input unkId cap maxOut fuel out0
      = (writeOut [⟨unkId, 0, input.length - 1⟩] maxOut out0, some 3) := by
    unfold ProcessRun
    rw [if_neg (by omega), if_neg (by omega), hpt]
    rfl
  rw [hrun]

theorem C6_vocab_empty_wit :
    ProcessTriples mDead [5, 6] 7 1 = some ([⟨7, 0, 1⟩], true) ∧
    (ProcessRun mDead [5, 6] 7 10 10 1 (fun _ => (0 : Int))).2 = some 3 := by
  have h := C6_vocab_empty mDead [5, 6] 7 10 10 1 (fun _ => (0 : Int))
    (fun st c _ hd => absurd rfl hd) (by decide) (by decide) (by decide) (by decide)
  simpa using h

/-! ### Cover-construction invariants -/

theorem accepts_iff {N : Nat} {c : Cover} {a : TArc} :
    accepts N c a = true ↔
      c.inter a.Start = false ∧ (a.End + 1 = N ∨ c.inter (a.End + 1) = false) := by
  simp [accepts, Bool.and_eq_true, Bool.or_eq_true, Bool.not_eq_true']

theorem accepts_tos_le {N : Nat} {c : Cover} {a : TArc} (hc : CovOK N c)
    (hacc : accepts N c a = true) (hse : a.Start ≤ a.End) (hsN : a.Start < N) :
    c.tos a.Start ≤ a.End := by
  obtain ⟨hs, hE⟩ := accepts_iff.mp hacc
  by_contra hcon
  push_neg at hcon
  have hcov := hc.covered a.Start (a.End + 1) (by omega) (by omega)
  rcases hE with hN | hfree
  · have := hc.tos_lt a.Start hsN
    omega
  · rw [hcov] at hfree
    cases hfree

theorem coverStep_ok {N : Nat} {c : Cover} {a : TArc} (hc : CovOK N c)
    (hse : a.Start ≤ a.End) (heN : a.End < N) : CovOK N (coverStep N c a) := by
  by_cases hacc : accepts N c a = true
  · have hsN : a.Start < N := by omega
    have htosle := accepts_tos_le hc hacc hse hsN
    obtain ⟨hs, hE⟩ := accepts_iff.mp hacc
    unfold coverStep
    rw [if_pos hacc]
    constructor
    · intro q hq
      dsimp only
      by_cases hqa : q = a.Start
      · rw [if_pos hqa]; exact heN
      · rw [if_neg hqa]; exact hc.tos_lt q hq
    · intro q
      dsimp only
      by_cases hqa : q = a.Start
      · rw [if_pos hqa]; right; rw [hqa]; exact hse
      · rw [if_neg hqa]; exact hc.tos_ge q
    · intro q p hqp hple
      dsimp only at hple ⊢
      by_cases hqa : q = a.Start
      · rw [if_pos hqa] at hple
        rw [if_pos (show a.Start < p ∧ p ≤ a.End from ⟨by omega, hple⟩)]
      · rw [if_neg hqa] at hple
        by_cases hmark : a.Start < p ∧ p ≤ a.End
        · rw [if_pos hmark]
        · rw [if_neg hmark]; exact hc.covered q p hqp hple
    · intro q hq hge
      dsimp only at hq hge ⊢
      have hq2 : c.inter q = false ∧ ¬(a.Start < q ∧ q ≤ a.End) := by
        by_cases hm : a.Start < q ∧ q ≤ a.End
        · rw [if_pos hm] at hq; cases hq
        · rw [if_neg hm] at hq; exact ⟨hq, hm⟩
      by_cases hqa : q = a.Start
      · subst hqa
        rw [if_pos rfl] at hge ⊢
        rw [if_neg (show ¬(a.Start < a.End + 1 ∧ a.End + 1 ≤ a.End) by omega)]
        rcases hE with hN | hfree
        · rw [hN]; exact hc.inter_hi N (Nat.le_refl N)
        · exact hfree
      · rw [if_neg hqa] at hge ⊢
        have hold := hc.next_free q hq2.1 hge
        rw [if_neg ?_]
        · exact hold
        · rintro ⟨hm1, hm2⟩
          rcases Nat.lt_trichotomy q a.Start with hlt | heq | hgt
          · have := hc.covered q a.Start hlt (by omega)
            rw [this] at hs; cases hs
          · exact hqa heq
          · have := hq2.2
            omega
    · intro j hj
      dsimp only
      rw [if_neg (by omega)]
      exact hc.inter_hi j hj
    · dsimp only
      rw [if_neg (by omega)]
      exact hc.inter_zero
    · intro r hr
      dsimp only at hr ⊢
      by_cases hm : a.Start < r ∧ r ≤ a.End
      · refine ⟨a.Start, hm.1, ?_, ?_⟩
        · rw [if_pos rfl]; exact hse
        · rw [if_pos rfl]; exact hm.2
      · rw [if_neg hm] at hr
        obtain ⟨q, hq1, hq2, hq3⟩ := hc.marked_src r hr
        by_cases hqa : q = a.Start
        · subst hqa
          refine ⟨a.Start, hq1, ?_, ?_⟩
          · rw [if_pos rfl]; exact hse
          · rw [if_pos rfl]; omega
        · refine ⟨q, hq1, ?_, ?_⟩
          · rw [if_neg hqa]; exact hq2
          · rw [if_neg hqa]; exact hq3
  · unfold coverStep
    rw [if_neg hacc]
    exact hc

theorem initCover_ok (N : Nat) (unkId : Int) : CovOK N (initCover unkId) := by
  constructor
  · intro q hq
    show (0 : Nat) < N
    omega
  · intro q
    left
    rfl
  · intro q p h1 h2
    have h0 : (initCover unkId).tos q = 0 := rfl
    rw [h0] at h2
    exact absurd h1 (by omega)
  · intro q _ _
    rfl
  · intro j _
    rfl
  · rfl
  · intro r hr
    exact absurd hr (by simp [initCover])

theorem foldCover_ok {N : Nat} : ∀ (arcs : List TArc) {c : Cover},
    CovOK N c → (∀ a ∈ arcs, a.Start ≤ a.End ∧ a.End < N) →
    CovOK N (foldCover N c arcs) := by
  intro arcs
  induction arcs with
  | nil => intro c hc _; exact hc
  | cons a rest ih =>
    intro c hc hb
    show CovOK N (foldCover N (coverStep N c a) rest)
    exact ih (coverStep_ok hc (hb a (by simp)).1 (hb a (by simp)).2)
      (fun x hx => hb x (by simp [hx]))

/-! ### Bounds on enumerated arcs -/

theorem walkFrom_bounds (m : Model) (input : List Nat) (start : Nat) :
    ∀ (rem i : Nat) (state sumOw : Int) (l : List TArc),
      walkFrom m input start rem i state sumOw = some l →
      ∀ a ∈ l, a.Start = start ∧ i ≤ a.End ∧ a.End < i + rem := by
  intro rem
  induction rem with
  | zero =>
    intro i state sumOw l h a ha
    injection h with h2
    rw [← h2] at ha
    cases ha
  | succ r ih =>
    intro i state sumOw l h a ha
    simp only [walkFrom] at h
    split at h
    · injection h with h2
      rw [← h2] at ha
      cases ha
    · split at h
      · split at h
        · cases h
        · split at h
          · cases h
          · rename_i rest hrec
            injection h with h2
            rw [← h2] at ha
            rcases List.mem_cons.mp ha with h3 | h3
            · subst h3
              refine ⟨rfl, Nat.le_refl i, ?_⟩
              show i < i + (r + 1)
              omega
            · obtain ⟨e1, e2, e3⟩ := ih (i+1) _ _ rest hrec a h3
              exact ⟨e1, by omega, by omega⟩
      · obtain ⟨e1, e2, e3⟩ := ih (i+1) _ _ l h a ha
        exact ⟨e1, by omega, by omega⟩

theorem addStart_eq_matched {m : Model} {input : List Nat} {unkId : Int}
    {arcs : List TArc} {start : Nat} {x : TArc} {xs : List TArc}
    (hwf : walkFrom m input start (input.length - start) start m.initial 0
      = some (x :: xs)) :
    addStart m input unkId arcs start = some (arcs ++ x :: xs) := by
  unfold addStart
  rw [hwf]

theorem addStart_eq_unk {m : Model} {input : List Nat} {unkId : Int}
    {arcs : List TArc} {start : Nat}
    (hwf : walkFrom m input start (input.length - start) start m.initial 0
      = some []) :
    addStart m input unkId arcs start =
      (match arcs.getLast? with
        | some la =>
          if la.Id = unkId then
            some (arcs.dropLast ++ [⟨la.Start, start, la.Id⟩])
          else
            some (arcs ++ [⟨start, start, unkId⟩])
        | none => some (arcs ++ [⟨start, start, unkId⟩])) := by
  unfold addStart
  rw [hwf]

theorem addStart_bounds {m : Model} {input : List Nat} {unkId : Int}
    {arcs arcs2 : List TArc} {start : Nat}
    (h : addStart m input unkId arcs start = some arcs2)
    (hstart : start < input.length)
    (hb : ∀ a ∈ arcs, a.Start ≤ a.End ∧ a.End < input.length ∧ a.Start ≤ start) :
    ∀ a ∈ arcs2, a.Start ≤ a.End ∧ a.End < input.length ∧ a.Start ≤ start + 1 := by
  cases hwf : walkFrom m input start (input.length - start) start m.initial 0 with
  | none =>
    unfold addStart at h
    rw [hwf] at h
    cases h
  | some l =>
    cases l with
    | nil =>
      rw [addStart_eq_unk hwf] at h
      cases hg : arcs.getLast? with
      | none =>
        rw [hg] at h
        have h' : some (arcs ++ [(⟨start, start, unkId⟩ : TArc)]) = some arcs2 := h
        injection h' with h2
        intro a ha
        rw [← h2] at ha
        rcases List.mem_append.mp ha with h3 | h3
        · have := hb a h3
          exact ⟨this.1, this.2.1, by omega⟩
        · rcases List.mem_singleton.mp h3 with rfl
          refine ⟨?_, ?_, ?_⟩
          · show start ≤ start; omega
          · show start < input.length; exact hstart
          · show start ≤ start + 1; omega
      | some la =>
        rw [hg] at h
        have h' : (if la.Id = unkId then
              some (arcs.dropLast ++ [(⟨la.Start, start, la.Id⟩ : TArc)])
            else some (arcs ++ [(⟨start, start, unkId⟩ : TArc)])) = some arcs2 := h
        by_cases hid : la.Id = unkId
        · rw [if_pos hid] at h'
          injection h' with h2
          intro a ha
          rw [← h2] at ha
          rcases List.mem_append.mp ha with h3 | h3
          · have := hb a (List.Sublist.mem h3 (List.dropLast_sublist arcs))
            exact ⟨this.1, this.2.1, by omega⟩
          · have hla := hb la (List.mem_of_getLast?_eq_some hg)
            rcases List.mem_singleton.mp h3 with rfl
            refine ⟨?_, ?_, ?_⟩
            · show la.Start ≤ start; exact hla.2.2
            · show start < input.length; exact hstart
            · show la.Start ≤ start + 1; omega
        · rw [if_neg hid] at h'
          injection h' with h2
          intro a ha
          rw [← h2] at ha
          rcases List.mem_append.mp ha with h3 | h3
          · have := hb a h3
            exact ⟨this.1, this.2.1, by omega⟩
          · rcases List.mem_singleton.mp h3 with rfl
            refine ⟨?_, ?_, ?_⟩
            · show start ≤ start; omega
            · show start < input.length; exact hstart
            · show start ≤ start + 1; omega
    | cons x xs =>
      rw [addStart_eq_matched hwf] at h
      injection h with h2
      intro a ha
      rw [← h2] at ha
      rcases List.mem_append.mp ha with h3 | h3
      · have := hb a h3
        exact ⟨this.1, this.2.1, by omega⟩
      · obtain ⟨e1, e2, e3⟩ := walkFrom_bounds m input start (input.length - start)
          start m.initial 0 (x :: xs) hwf a h3
        refine ⟨by omega, by omega, by omega⟩

theorem buildArcsAux_bounds (m : Model) (input : List Nat) (unkId : Int) :
    ∀ (n k : Nat) (arcs arcs2 : List TArc),
      k + n ≤ input.length →
      buildArcsAux m input unkId (List.range' k n) arcs = some arcs2 →
      (∀ a ∈ arcs, a.Start ≤ a.End ∧ a.End < input.length ∧ a.Start ≤ k) →
      ∀ a ∈ arcs2, a.Start ≤ a.End ∧ a.End < input.length := by
  intro n
  induction n with
  | zero =>
    intro k arcs arcs2 hkn h hb a ha
    injection h with h2
    rw [← h2] at ha
    exact ⟨(hb a ha).1, (hb a ha).2.1⟩
  | succ n2 ih =>
    intro k arcs arcs2 hkn h hb a ha
    rw [List.range'_succ] at h
    simp only [buildArcsAux] at h
    split at h
    · cases h
    · rename_i arcsMid heq
      exact ih (k+1) arcsMid arcs2 (by omega) h
        (addStart_bounds heq (by omega) hb) a ha

theorem buildArcs_bounds {m : Model} {input : List Nat} {unkId : Int} {arcs : List TArc}
    (h : buildArcs m input unkId = some arcs) :
    ∀ a ∈ arcs, a.Start ≤ a.End ∧ a.End < input.length := by
  unfold buildArcs at h
  rw [List.range_eq_range'] at h
  exact buildArcsAux_bounds m input unkId input.length 0 [] arcs (by omega) h
    (fun a ha => absurd ha (List.not_mem_nil a))

/-! ### Claim C1 (amended): termination implies a contiguous partition -/

theorem walk_stuck {N : Nat} {c : Cover} (hc : CovOK N c) {p : Nat}
    (hpN : p < N) (hip : c.inter p = false) (htp : c.tos p = 0) (hp1 : 1 ≤ p) :
    ∀ fuel q, 1 ≤ q → q ≤ p → (walk c N fuel q).2 = false := by
  intro fuel
  induction fuel with
  | zero =>
    intro q h1 h2
    simp [walk]
    omega
  | succ f ih =>
    intro q h1 h2
    have hqN : q < N := by omega
    rw [walk_fin_succ c N f q hqN]
    have htq : c.tos q < p := by
      rcases Nat.lt_or_ge (c.tos q) p with h | h
      · exact h
      · exfalso
        by_cases hq : q = p
        · subst hq; omega
        · have := hc.covered q p (by omega) (by omega)
          rw [this] at hip
          cases hip
    exact ih (c.tos q + 1) (by omega) (by omega)

theorem walk_chain {N : Nat} {c : Cover} (hc : CovOK N c) :
    ∀ fuel pos, pos ≤ N → c.inter pos = false →
      (walk c N fuel pos).2 = true → isChain N pos (walk c N fuel pos).1 = true := by
  intro fuel
  induction fuel with
  | zero =>
    intro pos h1 h2 h3
    simp [walk] at h3 ⊢
    simp [isChain]
    omega
  | succ f ih =>
    intro pos h1 h2 h3
    by_cases hlt : pos < N
    · have h3' : (walk c N f (c.tos pos + 1)).2 = true := by
        rw [← walk_fin_succ c N f pos hlt]
        exact h3
      have hge : pos ≤ c.tos pos := by
        rcases hc.tos_ge pos with h0 | h
        · rcases Nat.eq_zero_or_pos pos with hp0 | hp1
          · omega
          · exfalso
            have hstuck := walk_stuck hc hlt h2 h0 hp1 f 1 (Nat.le_refl 1) hp1
            rw [h0] at h3'
            simp only [Nat.zero_add] at h3'
            rw [hstuck] at h3'
            cases h3'
        · exact h
      have hEN : c.tos pos < N := hc.tos_lt pos hlt
      have hfree : c.inter (c.tos pos + 1) = false := hc.next_free pos h2 hge
      have hrec := ih (c.tos pos + 1) (by omega) hfree h3'
      rw [walk_succ_lt c N f pos hlt]
      show isChain N pos
        (⟨c.ids pos, pos, c.tos pos⟩ :: (walk c N f (c.tos pos + 1)).1) = true
      simp [isChain, hge, hEN, hrec]
    · have hpos : pos = N := by omega
      rw [hpos, walk_finish c N (f+1) N (Nat.le_refl N)]
      simp [isChain]

/-- Claim C1 (amended): whenever the reconstruction walk of `Process`
completes, the emitted triples tile `[0, N-1]` contiguously in emission
order: the first triple starts at 0, every span is nonempty and ends
before `N`, each subsequent triple starts right after the previous one
ends, and the last triple ends at `N-1` — so the spans partition
`[0, N-1]` without overlap.  (The unamended universal claim is refuted
by `C1_cex`: for some valid models the walk never completes and the
emitted triples repeat a start position.) -/
theorem C1_partition (m : Model) (input : List Nat) (unkId : Int)
    (fuel : Nat) (ts : List Triple)
    (h : ProcessTriples m input unkId fuel = some (ts, true)) :
    isChain input.length 0 ts = true := by
  unfold ProcessTriples at h
  cases harcs : buildArcs m input unkId with
  | none =>
    rw [harcs] at h
    cases h
  | some arcs =>
    rw [harcs] at h
    injection h with h2
    have hb := buildArcs_bounds harcs
    have hb2 : ∀ a ∈ sortArcs arcs, a.Start ≤ a.End ∧ a.End < input.length := by
      intro a ha
      exact hb a (List.mem_mergeSort.mp ha)
    have hcov : CovOK input.length (buildCover input.length unkId (sortArcs arcs)) :=
      foldCover_ok (sortArcs arcs) (initCover_ok input.length unkId) hb2
    have hfin : (walk (buildCover input.length unkId (sortArcs arcs))
        input.length fuel 0).2 = true := by
      rw [h2]
    have hts : (walk (buildCover input.length unkId (sortArcs arcs))
        input.length fuel 0).1 = ts := by
      rw [h2]
    have hch := walk_chain hcov fuel 0 (by omega) hcov.inter_zero hfin
    rw [hts] at hch
    exact hch

theorem C1_partition_wit : isChain 3 0 [⟨4, 0, 2⟩] = true :=
  C1_partition mABC [97, 98, 99] 100 4 [⟨4, 0, 2⟩] (by decide)

/-! ### Claim C2 (amended): termination under single-unit coverage -/

theorem walkFrom_single {m : Model} {input : List Nat} {start : Nat} {l : List TArc}
    (hlt : start < input.length) (hs : singleOK m (input.getD start 0))
    (h : walkFrom m input start (input.length - start) start m.initial 0 = some l) :
    ∃ id rest2, l = ⟨start, start, id⟩ :: rest2 := by
  obtain ⟨r, hr⟩ : ∃ r, input.length - start = r + 1 :=
    ⟨input.length - start - 1, by omega⟩
  rw [hr] at h
  obtain ⟨hs1, hs2⟩ := hs
  simp only [walkFrom] at h
  rw [if_neg hs1, if_pos hs2] at h
  cases hi : m.i2info (0 + (m.getDestOw m.initial (input.getD start 0)).2) with
  | nil =>
    rw [hi] at h
    cases h
  | cons v vs =>
    rw [hi] at h
    cases hw : walkFrom m input start r (start + 1)
        (m.getDestOw m.initial (input.getD start 0)).1
        (0 + (m.getDestOw m.initial (input.getD start 0)).2) with
    | none =>
      rw [hw] at h
      cases h
    | some rest2 =>
      rw [hw] at h
      have h2 : some ((⟨start, start, v⟩ : TArc) :: rest2) = some l := h
      injection h2 with h3
      exact ⟨v, rest2, h3.symm⟩

theorem buildArcsAux_mem (m : Model) (input : List Nat) (unkId : Int) :
    ∀ (starts : List Nat) (arcs arcs2 : List TArc),
      buildArcsAux m input unkId starts arcs = some arcs2 →
      (∀ s ∈ starts, s < input.length ∧ singleOK m (input.getD s 0)) →
      (∀ a ∈ arcs, a ∈ arcs2) ∧
      (∀ s ∈ starts, ∃ id, (⟨s, s, id⟩ : TArc) ∈ arcs2) := by
  intro starts
  induction starts with
  | nil =>
    intro arcs arcs2 h _
    injection h with h2
    refine ⟨fun a ha => h2 ▸ ha, ?_⟩
    intro s hs
    cases hs
  | cons s rest ih =>
    intro arcs arcs2 h hstart
    simp only [buildArcsAux] at h
    split at h
    · cases h
    · rename_i arcsMid heq
      obtain ⟨hs1, hs2⟩ := hstart s (by simp)
      cases hwf : walkFrom m input s (input.length - s) s m.initial 0 with
      | none =>
        unfold addStart at heq
        rw [hwf] at heq
        cases heq
      | some l =>
        obtain ⟨id0, rest2, rfl⟩ := walkFrom_single hs1 hs2 hwf
        have heq2 : arcsMid = arcs ++ ⟨s, s, id0⟩ :: rest2 := by
          have hm : addStart m input unkId arcs s = some (arcs ++ ⟨s, s, id0⟩ :: rest2) :=
            addStart_eq_matched hwf
          rw [hm] at heq
          injection heq with h3
          exact h3.symm
        obtain ⟨ihmono, ihmem⟩ := ih arcsMid arcs2 h
          (fun x hx => hstart x (by simp [hx]))
        subst heq2
        constructor
        · intro a ha
          exact ihmono a (List.mem_append_left _ ha)
        · intro t ht
          rcases List.mem_cons.mp ht with rfl | ht2
          · exact ⟨id0, ihmono ⟨t, t, id0⟩
              (List.mem_append_right _ (List.mem_cons_self _ _))⟩
          · exact ihmem t ht2

theorem coverStep_good {N : Nat} {c : Cover} {a : TArc} {p : Nat}
    (hg : Good c p) (hse : a.Start ≤ a.End) : Good (coverStep N c a) p := by
  unfold coverStep
  by_cases hacc : accepts N c a = true
  · rw [if_pos hacc]
    rcases hg with hi | ht
    · left
      dsimp only
      by_cases hm : a.Start < p ∧ p ≤ a.End
      · rw [if_pos hm]
      · rw [if_neg hm]; exact hi
    · right
      dsimp only
      by_cases hpa : p = a.Start
      · rw [if_pos hpa]; omega
      · rw [if_neg hpa]; exact ht
  · rw [if_neg hacc]; exact hg

theorem foldCover_good_keep {N : Nat} : ∀ (arcs : List TArc) {c : Cover} {p : Nat},
    Good c p → (∀ a ∈ arcs, a.Start ≤ a.End) → Good (foldCover N c arcs) p := by
  intro arcs
  induction arcs with
  | nil => intro c p hg _; exact hg
  | cons a rest ih =>
    intro c p hg hb
    show Good (foldCover N (coverStep N c a) rest) p
    exact ih (coverStep_good hg (hb a (by simp))) (fun x hx => hb x (by simp [hx]))

theorem foldCover_good {N : Nat} : ∀ (arcs : List TArc) {c : Cover} {p : Nat} {id0 : Int},
    CovOK N c → (∀ a ∈ arcs, a.Start ≤ a.End ∧ a.End < N) →
    (⟨p, p, id0⟩ : TArc) ∈ arcs → Good (foldCover N c arcs) p := by
  intro arcs
  induction arcs with
  | nil => intro c p id0 _ _ hmem; cases hmem
  | cons a rest ih =>
    intro c p id0 hc hb hmem
    show Good (foldCover N (coverStep N c a) rest) p
    rcases List.mem_cons.mp hmem with heq | hmem2
    · subst heq
      have hgood : Good (coverStep N c (⟨p, p, id0⟩ : TArc)) p := by
        by_cases hacc : accepts N c ⟨p, p, id0⟩ = true
        · right
          unfold coverStep
          rw [if_pos hacc]
          dsimp only
          rw [if_pos (rfl : p = (⟨p, p, id0⟩ : TArc).Start)]
        · unfold coverStep
          rw [if_neg hacc]
          by_cases hip : c.inter p = true
          · exact Or.inl hip
          · have hipf : c.inter p = false := by
              cases hval : c.inter p
              · rfl
              · exact absurd hval hip
            have h2 : ¬(p + 1 = N ∨ c.inter (p + 1) = false) := by
              intro hor
              exact hacc (accepts_iff.mpr ⟨hipf, hor⟩)
            push_neg at h2
            obtain ⟨hne, hint⟩ := h2
            have hint2 : c.inter (p + 1) = true := by
              cases hval : c.inter (p + 1)
              · exact absurd hval hint
              · rfl
            obtain ⟨q, hq1, hq2, hq3⟩ := hc.marked_src (p + 1) hint2
            by_cases hqp : q = p
            · subst hqp
              right
              omega
            · have hcontra : c.inter p = true := hc.covered q p (by omega) (by omega)
              rw [hcontra] at hipf
              cases hipf
      exact foldCover_good_keep rest hgood (fun x hx => (hb x (by simp [hx])).1)
    · exact ih (coverStep_ok hc (hb a (by simp)).1 (hb a (by simp)).2)
        (fun x hx => hb x (by simp [hx])) hmem2

theorem walk_term {N : Nat} {c : Cover} (hc : CovOK N c)
    (hg : ∀ p, p < N → Good c p) :
    ∀ fuel pos, pos ≤ N → c.inter pos = false → N ≤ pos + fuel →
      (walk c N fuel pos).2 = true := by
  intro fuel
  induction fuel with
  | zero =>
    intro pos h1 h2 h3
    simp [walk]
    omega
  | succ f ih =>
    intro pos h1 h2 h3
    by_cases hlt : pos < N
    · rw [walk_fin_succ c N f pos hlt]
      have hge : pos ≤ c.tos pos := by
        rcases hg pos hlt with hi | ht
        · rw [hi] at h2; cases h2
        · exact ht
      have hEN := hc.tos_lt pos hlt
      have hfree := hc.next_free pos h2 hge
      exact ih (c.tos pos + 1) (by omega) hfree (by omega)
    · rw [walk_finish c N (f+1) pos (by omega)]

/-- Claim C2 (amended): provided every input position has a
single-code-unit vocabulary match (the arc buffer then contains a
length-1 arc at every position), the output-reconstruction walk of
`Process` terminates — with fuel `N` it reaches `pos = N` — after
emitting a complete contiguous cover of `[0, N-1]`.  (The unamended
claim, for arbitrary valid models, is refuted by `C2_cex`: without
single-unit coverage the walk can revisit position 1 forever, and a
position with `tos = 0` is treated as a jump to position 1 rather than
as a length-1 unknown.) -/
theorem C2_walk_terminates (m : Model) (input : List Nat) (unkId : Int)
    (fuel : Nat) (r : List Triple × Bool)
    (hsingle : ∀ p, p < input.length → singleOK m (input.getD p 0))
    (hfuel : input.length ≤ fuel)
    (h : ProcessTriples m input unkId fuel = some r) :
    r.2 = true ∧ isChain input.length 0 r.1 = true := by
  unfold ProcessTriples at h
  cases harcs : buildArcs m input unkId with
  | none =>
    rw [harcs] at h
    cases h
  | some arcs =>
    rw [harcs] at h
    injection h with h2
    have hb := buildArcs_bounds harcs
    have hb2 : ∀ a ∈ sortArcs arcs, a.Start ≤ a.End ∧ a.End < input.length :=
      fun a ha => hb a (List.mem_mergeSort.mp ha)
    have hcov := foldCover_ok (sortArcs arcs) (initCover_ok input.length unkId) hb2
    have harcs2 : buildArcsAux m input unkId (List.range input.length) [] = some arcs :=
      harcs
    have hmem : ∀ p, p < input.length → ∃ id, (⟨p, p, id⟩ : TArc) ∈ arcs := by
      intro p hp
      have hm := buildArcsAux_mem m input unkId (List.range input.length) [] arcs
        harcs2
        (fun s hs => ⟨List.mem_range.mp hs, hsingle s (List.mem_range.mp hs)⟩)
      exact hm.2 p (List.mem_range.mpr hp)
    have hgood : ∀ p, p < input.length →
        Good (buildCover input.length unkId (sortArcs arcs)) p := by
      intro p hp
      obtain ⟨id0, hid⟩ := hmem p hp
      exact foldCover_good (sortArcs arcs) (initCover_ok input.length unkId) hb2
        (List.mem_mergeSort.mpr hid)
    have hfin := walk_term hcov hgood fuel 0 (by omega) hcov.inter_zero (by omega)
    have hch := walk_chain hcov fuel 0 (by omega) hcov.inter_zero hfin
    rw [← h2]
    exact ⟨hfin, hch⟩

theorem C2_walk_terminates_wit :
    (([⟨2, 0, 1⟩] : List Triple), true).2 = true ∧
    isChain 2 0 [⟨2, 0, 1⟩] = true :=
  C2_walk_terminates mABC [97, 98] 100 4 ([⟨2, 0, 1⟩], true)
    (by decide) (by decide) (by decide)

/-! ### Claim C10: same-start acceptance and overwrite -/

theorem acceptedList_sublist : ∀ (arcs : List TArc) (N : Nat) (c : Cover),
    (acceptedList N c arcs).Sublist arcs := by
  intro arcs
  induction arcs with
  | nil => intro N c; exact List.Sublist.refl []
  | cons a rest ih =>
    intro N c
    unfold acceptedList
    by_cases hacc : accepts N c a = true
    · rw [if_pos hacc]
      exact List.Sublist.cons₂ a (ih N (coverStep N c a))
    · rw [if_neg hacc]
      exact List.Sublist.cons a (ih N (coverStep N c a))

theorem foldCover_last : ∀ (arcs : List TArc) (N : Nat) (c : Cover) (s : Nat),
    (foldCover N c arcs).ids s =
      lastIdD ((acceptedList N c arcs).filter (fun x => x.Start == s)) (c.ids s) ∧
    (foldCover N c arcs).tos s =
      lastEndD ((acceptedList N c arcs).filter (fun x => x.Start == s)) (c.tos s) := by
  intro arcs
  induction arcs with
  | nil => intro N c s; exact ⟨rfl, rfl⟩
  | cons a rest ih =>
    intro N c s
    by_cases hacc : accepts N c a = true
    · have hal : acceptedList N c (a :: rest)
          = a :: acceptedList N (coverStep N c a) rest := by
        show (if accepts N c a = true then a :: acceptedList N (coverStep N c a) rest
          else acceptedList N (coverStep N c a) rest)
          = a :: acceptedList N (coverStep N c a) rest
        rw [if_pos hacc]
      by_cases hsa : a.Start = s
      · have hf : ((a :: acceptedList N (coverStep N c a) rest).filter
            (fun x => x.Start == s))
            = a :: (acceptedList N (coverStep N c a) rest).filter
                (fun x => x.Start == s) := by
          simp [List.filter_cons, hsa]
        have hids : (coverStep N c a).ids s = a.Id := by
          unfold coverStep
          rw [if_pos hacc]
          dsimp only
          rw [if_pos hsa.symm]
        have htos : (coverStep N c a).tos s = a.End := by
          unfold coverStep
          rw [if_pos hacc]
          dsimp only
          rw [if_pos hsa.symm]
        have h1 := ih N (coverStep N c a) s
        refine ⟨?_, ?_⟩
        · show (foldCover N (coverStep N c a) rest).ids s = _
          rw [hal, hf]
          show _ = lastIdD ((acceptedList N (coverStep N c a) rest).filter
            (fun x => x.Start == s)) a.Id
          rw [h1.1, hids]
        · show (foldCover N (coverStep N c a) rest).tos s = _
          rw [hal, hf]
          show _ = lastEndD ((acceptedList N (coverStep N c a) rest).filter
            (fun x => x.Start == s)) a.End
          rw [h1.2, htos]
      · have hf : ((a :: acceptedList N (coverStep N c a) rest).filter
            (fun x => x.Start == s))
            = (acceptedList N (coverStep N c a) rest).filter
                (fun x => x.Start == s) := by
          simp [List.filter_cons, hsa]
        have hids : (coverStep N c a).ids s = c.ids s := by
          unfold coverStep
          rw [if_pos hacc]
          dsimp only
          rw [if_neg (fun hh => hsa hh.symm)]
        have htos : (coverStep N c a).tos s = c.tos s := by
          unfold coverStep
          rw [if_pos hacc]
          dsimp only
          rw [if_neg (fun hh => hsa hh.symm)]
        have h1 := ih N (coverStep N c a) s
        refine ⟨?_, ?_⟩
        · show (foldCover N (coverStep N c a) rest).ids s = _
          rw [hal, hf, h1.1, hids]
        · show (foldCover N (coverStep N c a) rest).tos s = _
          rw [hal, hf, h1.2, htos]
    · have hstepc : coverStep N c a = c := by
        unfold coverStep
        rw [if_neg hacc]
      have hal2 : acceptedList N c (a :: rest) = acceptedList N c rest := by
        show (if accepts N c a = true then a :: acceptedList N (coverStep N c a) rest
          else acceptedList N (coverStep N c a) rest)
          = acceptedList N c rest
        rw [if_neg hacc, hstepc]
      have h1 := ih N c s
      refine ⟨?_, ?_⟩
      · show (foldCover N (coverStep N c a) rest).ids s = _
        rw [hstepc, hal2, h1.1]
      · show (foldCover N (coverStep N c a) rest).tos s = _
        rw [hstepc, hal2, h1.2]

theorem lastIdD_ge : ∀ (l : List TArc) (d : Int),
    (∀ x ∈ l, d ≤ x.Id) → l.Pairwise (fun a b => arcLE a b = true) →
    d ≤ lastIdD l d := by
  intro l
  induction l with
  | nil => intro d _ _; exact le_refl d
  | cons b rest ih =>
    intro d hd hp
    show d ≤ lastIdD rest b.Id
    have hb : d ≤ b.Id := hd b (by simp)
    have hrest : ∀ x ∈ rest, b.Id ≤ x.Id := by
      intro x hx
      have := (List.pairwise_cons.mp hp).1 x hx
      simp only [arcLE, decide_eq_true_eq] at this
      omega
    exact le_trans hb (ih b.Id hrest (List.pairwise_cons.mp hp).2)

theorem mem_le_lastIdD : ∀ (l : List TArc) (d : Int) (a : TArc),
    a ∈ l → l.Pairwise (fun a b => arcLE a b = true) → a.Id ≤ lastIdD l d := by
  intro l
  induction l with
  | nil => intro d a ha _; cases ha
  | cons b rest ih =>
    intro d a ha hp
    show a.Id ≤ lastIdD rest b.Id
    rcases List.mem_cons.mp ha with rfl | ha2
    · refine lastIdD_ge rest a.Id ?_ (List.pairwise_cons.mp hp).2
      intro x hx
      have := (List.pairwise_cons.mp hp).1 x hx
      simp only [arcLE, decide_eq_true_eq] at this
      omega
    · exact ih b.Id a ha2 (List.pairwise_cons.mp hp).2

/-- Claim C10: an arc whose start equals the start of an already
accepted arc can itself be accepted (acceptance never marks start
positions, only
strict interiors), and acceptance overwrites `tos` and `ids` at that
start; consequently, for the arcs sharing a start position, the last
accepted one in processing order determines the emitted entries, and
under the sort order its id is the largest among the accepted same-start
arcs — not the smallest. -/
theorem C10_same_start_overwrite :
    (∀ (N : Nat) (c : Cover) (a : TArc), accepts N c a = true →
      (coverStep N c a).tos a.Start = a.End ∧ (coverStep N c a).ids a.Start = a.Id) ∧
    (∀ (N : Nat) (c : Cover) (arcs : List TArc) (s : Nat),
      (foldCover N c arcs).ids s =
        lastIdD ((acceptedList N c arcs).filter (fun x => x.Start == s)) (c.ids s) ∧
      (foldCover N c arcs).tos s =
        lastEndD ((acceptedList N c arcs).filter (fun x => x.Start == s)) (c.tos s)) ∧
    (∀ (N : Nat) (c : Cover) (arcs : List TArc) (s : Nat),
      arcs.Pairwise (fun a b => arcLE a b = true) →
      ∀ a ∈ (acceptedList N c arcs).filter (fun x => x.Start == s),
        a.Id ≤ lastIdD ((acceptedList N c arcs).filter (fun x => x.Start == s))
          (c.ids s)) := by
  refine ⟨?_, ?_, ?_⟩
  · intro N c a hacc
    unfold coverStep
    rw [if_pos hacc]
    constructor
    · dsimp only
      rw [if_pos rfl]
    · dsimp only
      rw [if_pos rfl]
  · intro N c arcs s
    exact foldCover_last arcs N c s
  · intro N c arcs s hp a ha
    have hsub : ((acceptedList N c arcs).filter (fun x => x.Start == s)).Sublist arcs :=
      (List.filter_sublist _).trans (acceptedList_sublist arcs N c)
    exact mem_le_lastIdD _ (c.ids s) a ha (hp.sublist hsub)

theorem C10_same_start_overwrite_wit :
    (coverStep 3 (initCover 100) ⟨0, 0, 1⟩).tos 0 = 0 ∧
    (coverStep 3 (initCover 100) ⟨0, 0, 1⟩).ids 0 = 1 ∧
    (foldCover 3 (initCover 100)
      [⟨0, 0, 1⟩, ⟨0, 1, 2⟩, ⟨1, 1, 3⟩, ⟨0, 2, 4⟩, ⟨2, 2, 100⟩]).ids 0 =
      lastIdD ((acceptedList 3 (initCover 100)
        [⟨0, 0, 1⟩, ⟨0, 1, 2⟩, ⟨1, 1, 3⟩, ⟨0, 2, 4⟩, ⟨2, 2, 100⟩]).filter
          (fun x => x.Start == 0)) ((initCover 100).ids 0) ∧
    (⟨0, 0, 1⟩ : TArc).Id ≤ lastIdD ((acceptedList 3 (initCover 100)
        [⟨0, 0, 1⟩, ⟨0, 1, 2⟩, ⟨1, 1, 3⟩, ⟨0, 2, 4⟩, ⟨2, 2, 100⟩]).filter
          (fun x => x.Start == 0)) ((initCover 100).ids 0) := by
  have h := C10_same_start_overwrite
  exact ⟨(h.1 3 (initCover 100) ⟨0, 0, 1⟩ (by decide)).1,
    (h.1 3 (initCover 100) ⟨0, 0, 1⟩ (by decide)).2,
    (h.2.1 3 (initCover 100) [⟨0, 0, 1⟩, ⟨0, 1, 2⟩, ⟨1, 1, 3⟩, ⟨0, 2, 4⟩, ⟨2, 2, 100⟩] 0).1,
    h.2.2 3 (initCover 100) [⟨0, 0, 1⟩, ⟨0, 1, 2⟩, ⟨1, 1, 3⟩, ⟨0, 2, 4⟩, ⟨2, 2, 100⟩] 0
      (by decide) ⟨0, 0, 1⟩ (by decide)⟩
